import Mathlib

/-!
# Verification of the sc_sim tick-driven matching core

A shallow embedding of the spatial-crowdsourcing simulator's core:
the entity models (src/models/worker.py, src/models/task.py), the pool
manager (src/simulator/state.py) and the two matching strategies
(src/simulator/strategies/greedy.py, src/simulator/strategies/composite.py).

Modelling conventions:

* Python floats are modelled as rationals.  Timestamps (pd.Timestamp) and
  timedeltas are rationals measured in seconds; pd.to_timedelta(h, unit="h")
  becomes multiplication by 3600.
* The transcendental library calls the source makes (math.radians, math.cos,
  math.log) have no exact computable rational form, so the embedding is
  parametric in a MathLib record carrying those three maps.  Every theorem
  quantifies over the record; concrete evaluations instantiate it with
  mathStub, which agrees with exact real mathematics at every argument the
  concrete states exercise (radians 0 = 0, cos 0 = 1, log 1 = 0 — all
  concrete coordinates below sit on the equator and all concrete task ages
  are zero).
* Python object references are rendered by value.  A worker's assigned_task
  back-reference is kept as the task id; a task's assigned_worker reference
  is kept as the worker value current at the moment the reference is stored
  (assigned workers are not mutated by any pool operation while assigned,
  so the stored value coincides with the pooled object in every run the
  theorems describe).
* Fallible Python code (list.remove raising ValueError, attribute access
  raising AttributeError) is rendered with Except.
-/

/- Batteries marks the Rat field operations irreducible, which blocks the
elaborator's whnf during decide on concrete rational states; the kernel
itself reduces them fine.  Restore semireducibility locally so concrete
evaluations go through decide. -/
attribute [local semireducible] Rat.add Rat.mul Rat.sub Rat.inv Rat.ofScientific

deriving instance DecidableEq for Except

namespace ScSim

/-- The transcendental functions the source imports from Python's math
module.  The embedding is parametric in them; see the header comment. -/
structure MathLib where
  radians : ℚ → ℚ
  cos : ℚ → ℚ
  log : ℚ → ℚ

/-- Concrete instantiation used for evaluation at concrete states.  It is
exact at the only arguments those states reach: radians 0 = 0, cos 0 = 1
(every concrete coordinate below has latitude 0, so cos is only applied to
radians 0) and log 1 = 0 (every concrete task age below is 0 seconds, so
log is only applied to 1). -/
def mathStub : MathLib :=
  { radians := fun _ => 0
    cos := fun _ => 1
    log := fun _ => 0 }

/-- models/worker.py, Worker.__init__.  Timestamps are rational seconds;
total_idle_time is a rational second count (pd.Timedelta rendered by its
total_seconds value); assigned_task holds the id of the referenced task. -/
structure Worker where
  id : ℕ
  start_lat : ℚ
  start_lon : ℚ
  release_time : ℚ
  deadline : ℚ
  assigned_task : Option ℕ
  available : Bool
  total_idle_time : ℚ
  last_state_ts : Option ℚ
  gamma : ℚ
  fairness_ewma : ℚ
  completed_tasks : ℕ
  revenue : ℚ
  last_active_ts : Option ℚ
deriving DecidableEq, Repr

/-- models/worker.py, Worker.assign_task: mark the worker busy with the
given task (stored by id). -/
def Worker.assignTask (w : Worker) (taskId : ℕ) : Worker :=
  { w with assigned_task := some taskId, available := false }

/-- models/worker.py, Worker.record_completion: bump the completion count,
accumulate revenue, stamp last_active_ts and mark the worker available
again.  Note what it does NOT do: assigned_task is left untouched. -/
def Worker.recordCompletion (w : Worker) (now : ℚ) (task_revenue : ℚ) : Worker :=
  { w with
    completed_tasks := w.completed_tasks + 1
    revenue := w.revenue + task_revenue
    last_active_ts := some now
    available := true }

/-- models/worker.py, Worker.update_idle: initialise last_state_ts if unset;
if the worker is available and time moved forward, accumulate the idle delta
and recompute the EWMA fairness signal from the NEW cumulative idle seconds;
in every branch advance last_state_ts to now. -/
def Worker.updateIdle (w : Worker) (now : ℚ) : Worker :=
  let ts := w.last_state_ts.getD now
  if w.available ∧ ts ≤ now then
    let total_idle := w.total_idle_time + (now - ts)
    { w with
      total_idle_time := total_idle
      fairness_ewma := (1 - w.gamma) * total_idle + w.gamma * w.fairness_ewma
      last_state_ts := some now }
  else
    { w with last_state_ts := some now }

/-- models/task.py, Task.__init__.  assigned_worker stores the referenced
Worker value (see the header comment on reference-vs-value rendering);
the four service-time bookkeeping fields start unset. -/
structure Task where
  id : ℕ
  pickup_lat : ℚ
  pickup_lon : ℚ
  dropoff_lat : ℚ
  dropoff_lon : ℚ
  release_time : ℚ
  expire_time : ℚ
  assigned_worker : Option Worker
  assigned : Bool
  finish_time : Option ℚ
  start_time : Option ℚ
  pickup_km : Option ℚ
  drop_km : Option ℚ
deriving DecidableEq, Repr

/-- strategies/greedy.py and strategies/composite.py, manhattan_km: planar
Manhattan-sum approximation, 111 km per degree, longitude scaled by the
cosine of the mean latitude in radians. -/
def manhattan_km (m : MathLib) (lat1 lon1 lat2 lon2 : ℚ) : ℚ :=
  let km_per_deg : ℚ := 111
  let d_lat := |lat1 - lat2| * km_per_deg
  let avg_lat := (lat1 + lat2) / 2
  let d_lon := |lon1 - lon2| * km_per_deg * m.cos (m.radians avg_lat)
  d_lat + d_lon

/-- Constant AVG_SPEED_KMH = 30 shared by both strategy modules. -/
def AVG_SPEED_KMH : ℚ := 30

/-- pd.to_timedelta(h, unit="h") expressed in the embedding's second-valued
time scale. -/
def hoursToSec (h : ℚ) : ℚ := h * 3600

/-- The projected finish time both strategies compute:
now + traveltime(total_km) at AVG_SPEED_KMH. -/
def finishEta (now total_km : ℚ) : ℚ :=
  now + hoursToSec (total_km / AVG_SPEED_KMH)

/-- The SIM_CONFIG flags the state manager reads (config.py). -/
structure SimConfig where
  teleport_on_complete : Bool
deriving DecidableEq, Repr

/-- simulator/state.py, StateManager pools.  all_workers/all_tasks are the
pending pools; the rest are the dynamic pools of the running simulation. -/
structure SimState where
  allWorkers : List Worker
  availableWorkers : List Worker
  assignedWorkers : List Worker
  allTasks : List Task
  activeTasks : List Task
  assignedTasks : List Task
  completedTasks : List Task
deriving DecidableEq, Repr

/-- The Python exceptions the embedded operations can raise. -/
inductive PyErr where
  | valueError
  | attributeError
deriving DecidableEq, Repr

/-- simulator/state.py, StateManager.release_workers: move every pending
worker whose release_time ≤ current_time into the available pool.  The
source removes the released workers by membership in the released list;
the filter below transcribes that literally. -/
def releaseWorkers (now : ℚ) (s : SimState) : SimState :=
  let to_release := s.allWorkers.filter (fun w => decide (w.release_time ≤ now))
  { s with
    availableWorkers := s.availableWorkers ++ to_release
    allWorkers := s.allWorkers.filter (fun w => decide (w ∉ to_release)) }

/-- simulator/state.py, StateManager.release_tasks: the task counterpart of
releaseWorkers. -/
def releaseTasks (now : ℚ) (s : SimState) : SimState :=
  let to_release := s.allTasks.filter (fun t => decide (t.release_time ≤ now))
  { s with
    activeTasks := s.activeTasks ++ to_release
    allTasks := s.allTasks.filter (fun t => decide (t ∉ to_release)) }

/-- The successful branch of StateManager.assign_task: remove the pair from
the active/available pools and append it to the assigned pools. -/
def assignOk (s : SimState) (t : Task) (w : Worker) : SimState :=
  { s with
    activeTasks := s.activeTasks.erase t
    availableWorkers := s.availableWorkers.erase w
    assignedTasks := s.assignedTasks ++ [t]
    assignedWorkers := s.assignedWorkers ++ [w] }

/-- simulator/state.py, StateManager.assign_task.  The source calls
list.remove on both pools, which raises ValueError when the entity is not
present; the error aborts the transition.  (On the path where the task is
present but the worker is not, CPython leaves the task already removed when
the exception propagates; no verified run reaches that path.) -/
def assignTask (s : SimState) (t : Task) (w : Worker) : Except PyErr SimState :=
  if t ∈ s.activeTasks then
    if w ∈ s.availableWorkers then .ok (assignOk s t w)
    else .error .valueError
  else .error .valueError

/-- simulator/state.py, StateManager.complete_task.  No precondition is
checked: the pair is removed from the assigned pools only if present
(the source guards each removal with a membership test), the task is
appended to the completed pool unconditionally, the worker's completion
bookkeeping runs, the optional teleport moves the worker to the dropoff
point, and the worker is appended to the available pool. -/
def completeTask (cfg : SimConfig) (s : SimState) (t : Task) (w : Worker)
    (now : ℚ) : SimState :=
  let assignedTasks := if t ∈ s.assignedTasks then s.assignedTasks.erase t
    else s.assignedTasks
  let assignedWorkers := if w ∈ s.assignedWorkers then s.assignedWorkers.erase w
    else s.assignedWorkers
  let w1 := w.recordCompletion now 0
  let w2 := if cfg.teleport_on_complete then
      { w1 with start_lat := t.dropoff_lat, start_lon := t.dropoff_lon }
    else w1
  { s with
    assignedTasks := assignedTasks
    assignedWorkers := assignedWorkers
    completedTasks := s.completedTasks ++ [t]
    availableWorkers := s.availableWorkers ++ [w2] }

/-- The auto-completion loop at the end of StateManager.step: complete, at
its finish_time, every task of the scanned list.  The worker is recovered
through the task's assigned_worker reference (a None reference would be
dereferenced by record_completion in the source, hence the AttributeError
branch). -/
def stepCompletions (cfg : SimConfig) : List Task → SimState → Except PyErr SimState
  | [], s => .ok s
  | t :: ts, s =>
    match t.assigned_worker with
    | none => .error .attributeError
    | some w => stepCompletions cfg ts (completeTask cfg s t w (t.finish_time.getD 0))

/-- simulator/state.py, StateManager.step: release both entity kinds, run
update_idle over every currently available worker, then auto-complete every
assigned task whose finish_time has arrived (distance service mode).  The
completion scan is taken over the assigned pool once, before the loop, as
in the source. -/
def stepOp (cfg : SimConfig) (now : ℚ) (s : SimState) : Except PyErr SimState :=
  let s1 := releaseTasks now (releaseWorkers now s)
  let s2 := { s1 with availableWorkers := s1.availableWorkers.map (·.updateIdle now) }
  let completed_now := s2.assignedTasks.filter
    (fun t => match t.finish_time with
      | some ft => decide (ft ≤ now)
      | none => false)
  stepCompletions cfg completed_now s2

/-! ## NearestFeasible greedy strategy (src/simulator/strategies/greedy.py) -/

/-- The scanning loop of greedy assign (lines 27–39): walk the available
workers keeping the first-found minimum pickup distance; a worker whose
finish_eta exceeds the worker's OWN deadline is skipped.  The source checks
no other bound here — in particular task.expire_time is never consulted.
The accumulator mirrors the (best_w, best_d) pair, with None standing for
the initial best_d = infinity. -/
def greedyPick (m : MathLib) (now : ℚ) (task : Task) (dropC : ℚ) :
    List Worker → Option (Worker × ℚ) → Option (Worker × ℚ)
  | [], best => best
  | w :: ws, best =>
    let d_pick := manhattan_km m w.start_lat w.start_lon task.pickup_lat task.pickup_lon
    let eta := finishEta now (d_pick + dropC)
    if eta > w.deadline then greedyPick m now task dropC ws best
    else
      match best with
      | none => greedyPick m now task dropC ws (some (w, d_pick))
      | some (_, best_d) =>
        if d_pick < best_d then greedyPick m now task dropC ws (some (w, d_pick))
        else greedyPick m now task dropC ws best

/-- The commit block shared by both strategies (greedy.py lines 40–55,
composite.py lines 111–126): stamp the task's distances and service window,
store the bidirectional references, and move the pair into the assigned
pools.  The task's assigned_worker reference is stored as the worker value
after its own assign_task mutation, matching what the Python reference
observes from that point on. -/
def commitAssignment (m : MathLib) (now : ℚ) (s : SimState) (task : Task)
    (w : Worker) (pickup_distance : ℚ) : SimState :=
  let drop_distance := manhattan_km m task.pickup_lat task.pickup_lon
    task.dropoff_lat task.dropoff_lon
  let total_km := pickup_distance + drop_distance
  let w' := w.assignTask task.id
  let task' := { task with
    pickup_km := some pickup_distance
    drop_km := some drop_distance
    finish_time := some (finishEta now total_km)
    start_time := some now
    assigned_worker := some w'
    assigned := true }
  { s with
    activeTasks := s.activeTasks.erase task
    availableWorkers := s.availableWorkers.erase w
    assignedTasks := s.assignedTasks ++ [task']
    assignedWorkers := s.assignedWorkers ++ [w'] }

/-- greedy.py assign: walk the snapshot of the active pool; for each task,
pick the nearest deadline-feasible worker and commit immediately. -/
def greedyLoop (m : MathLib) (now : ℚ) :
    List Task → SimState → List (ℕ × ℕ × ℚ) → List (ℕ × ℕ × ℚ) × SimState
  | [], s, acc => (acc, s)
  | task :: ts, s, acc =>
    let dropC := manhattan_km m task.pickup_lat task.pickup_lon
      task.dropoff_lat task.dropoff_lon
    match greedyPick m now task dropC s.availableWorkers none with
    | none => greedyLoop m now ts s acc
    | some (w, best_d) =>
      greedyLoop m now ts (commitAssignment m now s task w best_d)
        (acc ++ [(task.id, w.id, best_d)])

/-- greedy.py assign, entry point: the iteration snapshot list(active_tasks)
is the active pool at entry. -/
def greedyAssign (m : MathLib) (s : SimState) (now : ℚ) :
    List (ℕ × ℕ × ℚ) × SimState :=
  greedyLoop m now s.activeTasks s []

/-! ## CompositeFairness strategy (src/simulator/strategies/composite.py) -/

/-- The keyword parameters of composite assign (line 35). -/
structure CompositeParams where
  l1 : ℚ
  l2 : ℚ
  l3 : ℚ
  k : ℤ
  score_filter : ℚ
  soft_threshold : ℚ
deriving DecidableEq, Repr

/-- composite.py lines 17–32, score(): composite score
λ1·fairness + λ2·log(1 + age_seconds) + λ3·(1 / (1 + pickup_distance)). -/
def scoreFn (m : MathLib) (p : CompositeParams) (task : Task) (w : Worker)
    (now : ℚ) : ℚ :=
  let distance := manhattan_km m w.start_lat w.start_lon task.pickup_lat task.pickup_lon
  let fairness := w.fairness_ewma
  let starvation := m.log (1 + (now - task.release_time))
  let utility := 1 / (1 + distance)
  p.l1 * fairness + p.l2 * starvation + p.l3 * utility

/-- Stable insertion of a (distance, worker) pair: the pair goes after every
already-placed pair of smaller-or-equal distance, reproducing the stability
of Python's list.sort under the distance key. -/
def insertByDist (x : ℚ × Worker) : List (ℚ × Worker) → List (ℚ × Worker)
  | [] => [x]
  | y :: ys => if x.1 < y.1 then x :: y :: ys else y :: insertByDist x ys

/-- Stable sort by pickup distance (composite.py line 64). -/
def sortByDist (l : List (ℚ × Worker)) : List (ℚ × Worker) :=
  l.foldl (fun acc x => insertByDist x acc) []

/-- composite.py lines 48–66, phase 1: feasibility filter (BOTH bounds:
the worker's deadline and the task's expire_time), sort ascending by pickup
distance, keep the k nearest when k > 0.  The third tuple component of the
source (a 0.0 score placeholder that is never read) is omitted. -/
def compositeCandidates (m : MathLib) (p : CompositeParams) (s : SimState)
    (task : Task) (now : ℚ) : List (ℚ × Worker) :=
  let dropC := manhattan_km m task.pickup_lat task.pickup_lon
    task.dropoff_lat task.dropoff_lon
  let feasible := s.availableWorkers.filterMap (fun w =>
    let d_pick := manhattan_km m w.start_lat w.start_lon task.pickup_lat task.pickup_lon
    let eta := finishEta now (d_pick + dropC)
    if eta > w.deadline ∨ eta > task.expire_time then none
    else some (d_pick, w))
  let sorted := sortByDist feasible
  if p.k > 0 then sorted.take p.k.toNat else sorted

/-- composite.py lines 75–79: score every retained candidate. -/
def compositeScored (m : MathLib) (p : CompositeParams) (s : SimState)
    (task : Task) (now : ℚ) : List (ℚ × Worker) :=
  (compositeCandidates m p s task now).map (fun c => (scoreFn m p task c.2 now, c.2))

/-- The running-maximum fold of composite.py lines 76–81 (best_score starts
at minus infinity, so the first element always replaces it; the fold below
starts from the first element's score). -/
def pyMaxFst (b : ℚ) : List (ℚ × Worker) → ℚ
  | [] => b
  | x :: xs => pyMaxFst (if x.1 > b then x.1 else b) xs

/-- max_score over the scored candidates; 0 in the vacuous empty case the
source never reaches (it returns at line 68 when candidates is empty). -/
def compositeBest (m : MathLib) (p : CompositeParams) (s : SimState)
    (task : Task) (now : ℚ) : ℚ :=
  match compositeScored m p s task now with
  | [] => 0
  | x :: xs => pyMaxFst x.1 xs

/-- composite.py lines 87–89: the near-optimal band, candidates whose score
reaches best_score · score_filter. -/
def compositeBand (m : MathLib) (p : CompositeParams) (s : SimState)
    (task : Task) (now : ℚ) : List (ℚ × Worker) :=
  (compositeScored m p s task now).filter
    (fun sw => decide (sw.1 ≥ compositeBest m p s task now * p.score_filter))

/-- composite.py line 95: the minimum completed_tasks over the band (Python
min over a non-empty generator; 0 in the vacuous empty case). -/
def compositeMinComp (m : MathLib) (p : CompositeParams) (s : SimState)
    (task : Task) (now : ℚ) : ℕ :=
  match compositeBand m p s task now with
  | [] => 0
  | b :: bs => (bs.map (fun sw => sw.2.completed_tasks)).foldl min b.2.completed_tasks

/-- composite.py line 96: the band members attaining the minimum
completed_tasks, among whom random.choice picks. -/
def compositeFinalists (m : MathLib) (p : CompositeParams) (s : SimState)
    (task : Task) (now : ℚ) : List Worker :=
  ((compositeBand m p s task now).filter
    (fun sw => decide (sw.2.completed_tasks = compositeMinComp m p s task now))).map
    Prod.snd

/-- One per-task assignment record of composite assign (line 126):
(task id, worker id, recomputed score, utility, fairness, starvation). -/
abbrev CompositeAssignment := ℕ × ℕ × ℚ × ℚ × ℚ × ℚ

/-- composite.py lines 99–126, the commit tail of the loop body: recompute
the chosen worker's score terms for the assignment record, then perform the
same distance/time bookkeeping and pool moves as greedy.  The recomputed
pickup distance equals the logging distance (identical manhattan_km call on
lines 102–103 and 112–113). -/
def compositeCommit (m : MathLib) (p : CompositeParams) (s : SimState)
    (task : Task) (now : ℚ) (best_w : Worker) :
    Option CompositeAssignment × SimState :=
  let fairness_val := best_w.fairness_ewma
  let starvation_val := m.log (1 + (now - task.release_time))
  let distance_val := manhattan_km m best_w.start_lat best_w.start_lon
    task.pickup_lat task.pickup_lon
  let utility_val := 1 / (1 + distance_val)
  let best_s := p.l1 * fairness_val + p.l2 * starvation_val + p.l3 * utility_val
  (some (task.id, best_w.id, best_s, utility_val, fairness_val, starvation_val),
   commitAssignment m now s task best_w distance_val)

/-- composite.py lines 40–126, the loop body for one task.  The ambient
state of Python's global random module (never seeded anywhere in the
repository) is abstracted as the natural number rand: random.choice of the
finalist list is the element at index rand modulo its length, so the family
over all rand covers exactly the possible ambient draws.  The match on the
finalists collapses the source's two early exits (empty candidates at line
68, empty band at line 91): the finalists are empty exactly when the band
is, since the minimum is attained on a non-empty band. -/
def compositeProcessTask (m : MathLib) (p : CompositeParams) (rand : ℕ)
    (s : SimState) (task : Task) (now : ℚ) :
    Option CompositeAssignment × SimState :=
  if compositeCandidates m p s task now = [] then (none, s)
  else if compositeBest m p s task now < p.soft_threshold then (none, s)
  else
    match compositeFinalists m p s task now with
    | [] => (none, s)
    | f :: fs =>
      let finalists := f :: fs
      compositeCommit m p s task now
        (finalists.get ⟨rand % finalists.length, Nat.mod_lt _ (Nat.succ_pos _)⟩)

/-- composite.py line 38: the comprehension filtering the active pool reads
t.worker_id on each task.  models/task.py defines assigned_worker and no
code in the repository ever creates a worker_id attribute on a Task, so the
read raises AttributeError.  The access is modelled as the always-failing
getattr it is. -/
def taskGetattrWorkerId (_ : Task) : Except PyErr (Option ℕ) :=
  .error .attributeError

/-- composite.py line 38, the filtering comprehension: evaluate the
condition left to right on each active task; the worker_id read fails on
the first task reached. -/
def compositeFilterTasks : List Task → Except PyErr (List Task)
  | [] => .ok []
  | t :: ts => do
    let wid ← taskGetattrWorkerId t
    let rest ← compositeFilterTasks ts
    if wid = none ∧ t.start_time = none then .ok (t :: rest) else .ok rest

/-- The per-task loop of composite assign over the filtered tasks.  rands
enumerates the successive draws of the ambient random source; the index
advances once per committed assignment, the only point where the source
consumes randomness. -/
def compositeLoop (m : MathLib) (p : CompositeParams) (rands : ℕ → ℕ) (now : ℚ) :
    List Task → SimState → List CompositeAssignment → ℕ →
    List CompositeAssignment × SimState
  | [], s, acc, _ => (acc, s)
  | t :: ts, s, acc, i =>
    match compositeProcessTask m p (rands i) s t now with
    | (none, s') => compositeLoop m p rands now ts s' acc i
    | (some a, s') => compositeLoop m p rands now ts s' (acc ++ [a]) (i + 1)

/-- composite.py assign, entry point: filter the active pool (which raises
AttributeError on the first task, see taskGetattrWorkerId), then run the
per-task loop on the survivors. -/
def compositeAssign (m : MathLib) (p : CompositeParams) (rands : ℕ → ℕ)
    (s : SimState) (now : ℚ) :
    Except PyErr (List CompositeAssignment × SimState) := do
  let unassigned ← compositeFilterTasks s.activeTasks
  .ok (compositeLoop m p rands now unassigned s [] 0)

/-! ## Pool accounting

The lifecycle invariants are stated over the multisets of entity ids held
across the pools. -/

/-- The multiset of task ids in a pool list. -/
def taskIds (l : List Task) : Multiset ℕ := ↑(l.map Task.id)

/-- The multiset of worker ids in a pool list. -/
def workerIds (l : List Worker) : Multiset ℕ := ↑(l.map Worker.id)

/-- All task ids across the four task pools of a state. -/
def taskPool (s : SimState) : Multiset ℕ :=
  taskIds s.allTasks + taskIds s.activeTasks + taskIds s.assignedTasks +
    taskIds s.completedTasks

/-- All worker ids across the three worker pools of a state. -/
def workerPool (s : SimState) : Multiset ℕ :=
  workerIds s.allWorkers + workerIds s.availableWorkers + workerIds s.assignedWorkers

/-- The ingestion state: every entity pending, dynamic pools empty
(StateManager.__init__). -/
def initState (ws : List Worker) (ts : List Task) : SimState :=
  { allWorkers := ws
    availableWorkers := []
    assignedWorkers := []
    allTasks := ts
    activeTasks := []
    assignedTasks := []
    completedTasks := [] }

/-- Freshness of the not-yet-completed tasks: ingestion constructs every
task with finish_time unset (Task.__init__), and no bare pool operation
ever sets it (only the strategies do, at commit time), so the scan at the
end of step finds nothing to auto-complete. -/
def FreshTasks (s : SimState) : Prop :=
  ∀ t ∈ s.allTasks ++ s.activeTasks ++ s.assignedTasks, t.finish_time = none

/-- States reachable from ingestion by release/assign/complete/step calls
whose arguments respect the documented preconditions: assign is called on
an active task and an available worker, complete on an assigned pair, and
step only when it returns normally. -/
inductive GReach (cfg : SimConfig) (ws : List Worker) (ts : List Task) :
    SimState → Prop where
  | init : GReach cfg ws ts (initState ws ts)
  | releaseW {s} (now : ℚ) : GReach cfg ws ts s →
      GReach cfg ws ts (releaseWorkers now s)
  | releaseT {s} (now : ℚ) : GReach cfg ws ts s →
      GReach cfg ws ts (releaseTasks now s)
  | assign {s} (t : Task) (w : Worker) : GReach cfg ws ts s →
      t ∈ s.activeTasks → w ∈ s.availableWorkers →
      GReach cfg ws ts (assignOk s t w)
  | complete {s} (t : Task) (w : Worker) (now : ℚ) : GReach cfg ws ts s →
      t ∈ s.assignedTasks → w ∈ s.assignedWorkers →
      GReach cfg ws ts (completeTask cfg s t w now)
  | step {s s'} (now : ℚ) : GReach cfg ws ts s →
      stepOp cfg now s = .ok s' → GReach cfg ws ts s'

/-- States reachable from ingestion by arbitrary release/assign/complete/step
calls: complete accepts any pair whatsoever, exactly as the unchecked source
does (an erroring assign or step aborts the run and yields no state). -/
inductive UReach (cfg : SimConfig) (ws : List Worker) (ts : List Task) :
    SimState → Prop where
  | init : UReach cfg ws ts (initState ws ts)
  | releaseW {s} (now : ℚ) : UReach cfg ws ts s →
      UReach cfg ws ts (releaseWorkers now s)
  | releaseT {s} (now : ℚ) : UReach cfg ws ts s →
      UReach cfg ws ts (releaseTasks now s)
  | assign {s s'} (t : Task) (w : Worker) : UReach cfg ws ts s →
      assignTask s t w = .ok s' → UReach cfg ws ts s'
  | complete {s} (t : Task) (w : Worker) (now : ℚ) : UReach cfg ws ts s →
      UReach cfg ws ts (completeTask cfg s t w now)
  | step {s s'} (now : ℚ) : UReach cfg ws ts s →
      stepOp cfg now s = .ok s' → UReach cfg ws ts s'

/-! ## The release phase of a tick

The spec's PoolManager.release(now) is realised in the source as the pair
release_workers/release_tasks, always called together at the top of step. -/

/-- Both release calls of a tick, in the order step makes them. -/
def releaseAll (now : ℚ) (s : SimState) : SimState :=
  releaseTasks now (releaseWorkers now s)

/-! ## Concrete fixtures

Concrete entities for evaluating the definitions at explicit inputs.  All
coordinates sit on the equator and all task ages at the evaluated instants
are zero, so mathStub is exact for them (see its doc comment). -/

/-- config.py SIM_CONFIG execution flags. -/
def cfg0 : SimConfig := { teleport_on_complete := true }

/-- The documented composite defaults: unit weights, k = 15,
score_filter = 0.8, soft_threshold = 4.0. -/
def p0 : CompositeParams :=
  { l1 := 1, l2 := 1, l3 := 1, k := 15, score_filter := 8/10, soft_threshold := 4 }

/-- A worker at the origin with a far deadline, released at time 0. -/
def wGreedy : Worker :=
  { id := 100, start_lat := 0, start_lon := 0, release_time := 0, deadline := 1000000
    assigned_task := none, available := true, total_idle_time := 0
    last_state_ts := some 0, gamma := 3/10, fairness_ewma := 0
    completed_tasks := 0, revenue := 0, last_active_ts := none }

/-- A task whose service takes 240 s (1 km pickup + 1 km drop at 30 km/h)
but which expires at time 100: its projected finish violates the expiry
bound for any worker near the origin at time 0. -/
def tExpire : Task :=
  { id := 1, pickup_lat := 0, pickup_lon := 1/111, dropoff_lat := 0, dropoff_lon := 2/111
    release_time := 0, expire_time := 100, assigned_worker := none, assigned := false
    finish_time := none, start_time := none, pickup_km := none, drop_km := none }

/-- The released state holding wGreedy and tExpire. -/
def sGreedy : SimState := releaseAll 0 (initState [wGreedy] [tExpire])

/-- A long-lived task at the origin used by the composite fixtures. -/
def tF : Task :=
  { id := 7, pickup_lat := 0, pickup_lon := 0, dropoff_lat := 0, dropoff_lon := 1/111
    release_time := 0, expire_time := 1000000, assigned_worker := none, assigned := false
    finish_time := none, start_time := none, pickup_km := none, drop_km := none }

/-- Band fixture: at the task, fairness signal 10, but 5 completed tasks
(score 11 at time 0 under unit weights). -/
def wBusy : Worker :=
  { id := 1, start_lat := 0, start_lon := 0, release_time := 0, deadline := 1000000
    assigned_task := none, available := true, total_idle_time := 0
    last_state_ts := some 0, gamma := 3/10, fairness_ewma := 10
    completed_tasks := 5, revenue := 0, last_active_ts := none }

/-- Band fixture: 1 km from the task, fairness signal 10, no completed
tasks (score 10.5 at time 0: in the 0.8-band but below wBusy). -/
def wFresh : Worker :=
  { id := 2, start_lat := 0, start_lon := 1/111, release_time := 0, deadline := 1000000
    assigned_task := none, available := true, total_idle_time := 0
    last_state_ts := some 0, gamma := 3/10, fairness_ewma := 10
    completed_tasks := 0, revenue := 0, last_active_ts := none }

/-- Band-fairness state: both band fixtures available, tF active. -/
def sBand : SimState :=
  { allWorkers := [], availableWorkers := [wBusy, wFresh], assignedWorkers := []
    allTasks := [], activeTasks := [tF], assignedTasks := [], completedTasks := [] }

/-- Tie fixture: same position and counters as its twin, different id. -/
def wTieA : Worker :=
  { id := 11, start_lat := 0, start_lon := 0, release_time := 0, deadline := 1000000
    assigned_task := none, available := true, total_idle_time := 0
    last_state_ts := some 0, gamma := 3/10, fairness_ewma := 10
    completed_tasks := 0, revenue := 0, last_active_ts := none }

/-- Tie fixture twin of wTieA. -/
def wTieB : Worker :=
  { id := 12, start_lat := 0, start_lon := 0, release_time := 0, deadline := 1000000
    assigned_task := none, available := true, total_idle_time := 0
    last_state_ts := some 0, gamma := 3/10, fairness_ewma := 10
    completed_tasks := 0, revenue := 0, last_active_ts := none }

/-- Tie state: two indistinguishable-by-score finalists for tF. -/
def sTie : SimState :=
  { allWorkers := [], availableWorkers := [wTieA, wTieB], assignedWorkers := []
    allTasks := [], activeTasks := [tF], assignedTasks := [], completedTasks := [] }

/-- Low-score fixture: fairness signal 0 at the task, so its composite
score is 1, below the default soft threshold 4. -/
def wCold : Worker :=
  { id := 21, start_lat := 0, start_lon := 0, release_time := 0, deadline := 1000000
    assigned_task := none, available := true, total_idle_time := 0
    last_state_ts := some 0, gamma := 3/10, fairness_ewma := 0
    completed_tasks := 0, revenue := 0, last_active_ts := none }

/-- Soft-threshold state: only wCold available for tF. -/
def sCold : SimState :=
  { allWorkers := [], availableWorkers := [wCold], assignedWorkers := []
    allTasks := [], activeTasks := [tF], assignedTasks := [], completedTasks := [] }

/-- A state with an active task but no available worker, for exercising
the assign guards. -/
def sNoWorker : SimState :=
  { allWorkers := [], availableWorkers := [], assignedWorkers := []
    allTasks := [], activeTasks := [tExpire], assignedTasks := [], completedTasks := [] }

/-- End state of a well-formed bare-operation run: release both fixtures at
time 0, assign them as a pair, complete the pair at time 240. -/
def sC5end : SimState :=
  completeTask cfg0 (assignOk sGreedy tExpire wGreedy) tExpire wGreedy 240

/-- Idle fixture for the update_idle recurrence: available, last timestamp
2, cumulative idle 3 s, fairness signal 7, gamma 3/10. -/
def wIdle : Worker :=
  { id := 31, start_lat := 0, start_lon := 0, release_time := 0, deadline := 1000000
    assigned_task := none, available := true, total_idle_time := 3
    last_state_ts := some 2, gamma := 3/10, fairness_ewma := 7
    completed_tasks := 0, revenue := 0, last_active_ts := none }

/-! ## Helper lemmas -/

/-- After a release pass, no pending worker still satisfies the release
predicate: the second pass has nothing to move. -/
theorem releaseWorkers_second_pass_empty (now : ℚ) (s : SimState) :
    (releaseWorkers now s).allWorkers.filter
      (fun w => decide (w.release_time ≤ now)) = [] := by
  simp only [releaseWorkers]
  rw [List.filter_eq_nil_iff]
  intro a ha
  rw [List.mem_filter] at ha
  obtain ⟨hal, hnotin⟩ := ha
  simp only [decide_eq_true_eq] at hnotin ⊢
  intro hle
  exact hnotin (List.mem_filter.mpr ⟨hal, by simp [hle]⟩)

/-- Idempotence of release_workers at a fixed now. -/
theorem releaseWorkers_idem (now : ℚ) (s : SimState) :
    releaseWorkers now (releaseWorkers now s) = releaseWorkers now s := by
  have h1 := releaseWorkers_second_pass_empty now s
  conv_lhs => rw [releaseWorkers]
  rw [h1]
  simp [releaseWorkers]

/-- After a release pass, no pending task still satisfies the release
predicate. -/
theorem releaseTasks_second_pass_empty (now : ℚ) (s : SimState) :
    (releaseTasks now s).allTasks.filter
      (fun t => decide (t.release_time ≤ now)) = [] := by
  simp only [releaseTasks]
  rw [List.filter_eq_nil_iff]
  intro a ha
  rw [List.mem_filter] at ha
  obtain ⟨hal, hnotin⟩ := ha
  simp only [decide_eq_true_eq] at hnotin ⊢
  intro hle
  exact hnotin (List.mem_filter.mpr ⟨hal, by simp [hle]⟩)

/-- Idempotence of release_tasks at a fixed now. -/
theorem releaseTasks_idem (now : ℚ) (s : SimState) :
    releaseTasks now (releaseTasks now s) = releaseTasks now s := by
  have h1 := releaseTasks_second_pass_empty now s
  conv_lhs => rw [releaseTasks]
  rw [h1]
  simp [releaseTasks]

/-- release_workers and release_tasks touch disjoint fields, so they
commute. -/
theorem releaseWorkers_releaseTasks_comm (now : ℚ) (s : SimState) :
    releaseWorkers now (releaseTasks now s) = releaseTasks now (releaseWorkers now s) := rfl

/-- The Python running maximum never goes below its accumulator. -/
theorem le_pyMaxFst_init (l : List (ℚ × Worker)) : ∀ b, b ≤ pyMaxFst b l := by
  induction l with
  | nil => intro b; exact le_refl b
  | cons x xs ih =>
    intro b
    simp only [pyMaxFst]
    refine le_trans ?_ (ih _)
    split
    · exact le_of_lt (by assumption)
    · exact le_refl b

/-- The Python running maximum dominates every scanned element. -/
theorem le_pyMaxFst_of_mem {x : ℚ × Worker} : ∀ {l : List (ℚ × Worker)}, x ∈ l →
    ∀ b, x.1 ≤ pyMaxFst b l := by
  intro l
  induction l with
  | nil => intro h; cases h
  | cons y ys ih =>
    intro h b
    rcases List.mem_cons.mp h with rfl | hmem
    · simp only [pyMaxFst]
      refine le_trans ?_ (le_pyMaxFst_init ys _)
      split
      · exact le_refl _
      · exact le_of_not_lt (by assumption)
    · exact ih hmem _

/-- The Python running maximum is the accumulator or a scanned element. -/
theorem pyMaxFst_eq_init_or_mem (l : List (ℚ × Worker)) :
    ∀ b, pyMaxFst b l = b ∨ ∃ x ∈ l, pyMaxFst b l = x.1 := by
  induction l with
  | nil => intro b; exact Or.inl rfl
  | cons y ys ih =>
    intro b
    simp only [pyMaxFst]
    rcases ih (if y.1 > b then y.1 else b) with h | ⟨x, hx, hval⟩
    · by_cases hc : y.1 > b
      · exact Or.inr ⟨y, List.mem_cons_self y ys, by rw [h, if_pos hc]⟩
      · exact Or.inl (by rw [h, if_neg hc])
    · exact Or.inr ⟨x, List.mem_cons_of_mem y hx, hval⟩

/-- A left fold of min never exceeds its accumulator. -/
theorem foldl_min_le_init (l : List ℕ) : ∀ a, l.foldl min a ≤ a := by
  induction l with
  | nil => intro a; exact le_refl a
  | cons x xs ih =>
    intro a
    exact le_trans (ih (min a x)) (min_le_left a x)

/-- A left fold of min is below every list element. -/
theorem foldl_min_le_mem {x : ℕ} : ∀ {l : List ℕ}, x ∈ l → ∀ a, l.foldl min a ≤ x := by
  intro l
  induction l with
  | nil => intro h; cases h
  | cons y ys ih =>
    intro h a
    rcases List.mem_cons.mp h with rfl | hmem
    · exact le_trans (foldl_min_le_init ys (min a x)) (min_le_right a x)
    · exact ih hmem _

/-- A left fold of min is the accumulator or attained in the list. -/
theorem foldl_min_eq_init_or_mem (l : List ℕ) :
    ∀ a, l.foldl min a = a ∨ l.foldl min a ∈ l := by
  induction l with
  | nil => intro a; exact Or.inl rfl
  | cons y ys ih =>
    intro a
    rcases ih (min a y) with h | h
    · rcases min_choice a y with hm | hm
      · exact Or.inl (by rw [List.foldl_cons, h, hm])
      · exact Or.inr (by rw [List.foldl_cons, h, hm]; exact List.mem_cons_self y ys)
    · exact Or.inr (List.mem_cons_of_mem y h)

/-- Membership through the stable insertion step. -/
theorem mem_insertByDist {x y : ℚ × Worker} : ∀ {l : List (ℚ × Worker)},
    (x ∈ insertByDist y l ↔ x = y ∨ x ∈ l) := by
  intro l
  induction l with
  | nil => simp [insertByDist]
  | cons z zs ih =>
    simp only [insertByDist]
    split
    · simp [List.mem_cons]
    · rw [List.mem_cons, ih, List.mem_cons]
      tauto

/-- Membership through the stable insertion-sort fold. -/
theorem mem_sortByDist_aux (l : List (ℚ × Worker)) : ∀ acc (x : ℚ × Worker),
    (x ∈ l.foldl (fun acc y => insertByDist y acc) acc ↔ x ∈ acc ∨ x ∈ l) := by
  induction l with
  | nil => intro acc x; simp
  | cons y ys ih =>
    intro acc x
    rw [List.foldl_cons, ih, mem_insertByDist, List.mem_cons]
    tauto

/-- The stable sort is a reordering: membership is unchanged. -/
theorem mem_sortByDist {x : ℚ × Worker} {l : List (ℚ × Worker)} :
    x ∈ sortByDist l ↔ x ∈ l := by
  unfold sortByDist
  rw [mem_sortByDist_aux]
  simp

/-- Scan invariant for the greedy worker loop: whatever pair the scan
returns satisfies the one bound the loop tests — the projected finish time
against the worker's own deadline — and carries that worker's pickup
distance.  The accumulator hypothesis states the same for the running
best. -/
theorem greedyPick_deadline_inv (m : MathLib) (now : ℚ) (task : Task) (dropC : ℚ) :
    ∀ (ws : List Worker) (best : Option (Worker × ℚ)) (w : Worker) (d : ℚ),
      (∀ bw bd, best = some (bw, bd) →
        finishEta now (bd + dropC) ≤ bw.deadline ∧
        bd = manhattan_km m bw.start_lat bw.start_lon task.pickup_lat task.pickup_lon) →
      greedyPick m now task dropC ws best = some (w, d) →
      finishEta now (d + dropC) ≤ w.deadline ∧
      d = manhattan_km m w.start_lat w.start_lon task.pickup_lat task.pickup_lon := by
  intro ws
  induction ws with
  | nil =>
    intro best w d hinv hres
    exact hinv w d hres
  | cons w0 ws ih =>
    intro best w d hinv hres
    simp only [greedyPick] at hres
    split at hres
    · exact ih best w d hinv hres
    · rename_i heta
      cases best with
      | none =>
        refine ih _ w d ?_ hres
        intro bw bd hbd
        have h1 : w0 = bw := congrArg Prod.fst (Option.some.inj hbd)
        have h2 : manhattan_km m w0.start_lat w0.start_lon task.pickup_lat task.pickup_lon
            = bd := congrArg Prod.snd (Option.some.inj hbd)
        subst h1
        subst h2
        exact ⟨le_of_not_lt heta, rfl⟩
      | some pair =>
        rcases pair with ⟨bw, bd⟩
        dsimp only at hres
        split at hres
        · refine ih _ w d ?_ hres
          intro bw' bd' hbd
          have h1 : w0 = bw' := congrArg Prod.fst (Option.some.inj hbd)
          have h2 : manhattan_km m w0.start_lat w0.start_lon task.pickup_lat task.pickup_lon
              = bd' := congrArg Prod.snd (Option.some.inj hbd)
          subst h1
          subst h2
          exact ⟨le_of_not_lt heta, rfl⟩
        · exact ih _ w d hinv hres

/-- Every retained composite candidate comes from the available pool, its
recorded distance is its pickup distance, and its projected finish time
respects BOTH the worker's deadline and the task's expiry (composite.py
lines 54–61). -/
theorem compositeCandidates_feasible {m : MathLib} {p : CompositeParams}
    {s : SimState} {task : Task} {now d : ℚ} {w : Worker}
    (h : (d, w) ∈ compositeCandidates m p s task now) :
    w ∈ s.availableWorkers ∧
    d = manhattan_km m w.start_lat w.start_lon task.pickup_lat task.pickup_lon ∧
    finishEta now (d + manhattan_km m task.pickup_lat task.pickup_lon
        task.dropoff_lat task.dropoff_lon) ≤ w.deadline ∧
    finishEta now (d + manhattan_km m task.pickup_lat task.pickup_lon
        task.dropoff_lat task.dropoff_lon) ≤ task.expire_time := by
  simp only [compositeCandidates] at h
  have h1 : (d, w) ∈ sortByDist (s.availableWorkers.filterMap (fun w =>
      let d_pick := manhattan_km m w.start_lat w.start_lon task.pickup_lat task.pickup_lon
      let eta := finishEta now (d_pick + manhattan_km m task.pickup_lat task.pickup_lon
        task.dropoff_lat task.dropoff_lon)
      if eta > w.deadline ∨ eta > task.expire_time then none
      else some (d_pick, w))) := by
    split at h
    · exact List.take_subset _ _ h
    · exact h
  rw [mem_sortByDist] at h1
  obtain ⟨w0, hw0, heq⟩ := List.mem_filterMap.mp h1
  simp only at heq
  by_cases hcond : finishEta now
      (manhattan_km m w0.start_lat w0.start_lon task.pickup_lat task.pickup_lon +
        manhattan_km m task.pickup_lat task.pickup_lon task.dropoff_lat task.dropoff_lon)
      > w0.deadline ∨
      finishEta now
      (manhattan_km m w0.start_lat w0.start_lon task.pickup_lat task.pickup_lon +
        manhattan_km m task.pickup_lat task.pickup_lon task.dropoff_lat task.dropoff_lon)
      > task.expire_time
  · rw [if_pos hcond] at heq
    cases heq
  · rw [if_neg hcond] at heq
    push_neg at hcond
    have hpair := Option.some.inj heq
    have hd : manhattan_km m w0.start_lat w0.start_lon task.pickup_lat task.pickup_lon = d :=
      congrArg Prod.fst hpair
    have hw : w0 = w := congrArg Prod.snd hpair
    subst hw
    subst hd
    exact ⟨hw0, rfl, hcond.1, hcond.2⟩

/-- max_score is attained by a scored candidate and dominates them all. -/
theorem compositeBest_spec (m : MathLib) (p : CompositeParams) (s : SimState)
    (task : Task) (now : ℚ) (h : compositeScored m p s task now ≠ []) :
    (∃ q ∈ compositeScored m p s task now, q.1 = compositeBest m p s task now) ∧
    (∀ q ∈ compositeScored m p s task now, q.1 ≤ compositeBest m p s task now) := by
  match hs : compositeScored m p s task now with
  | [] => exact absurd hs h
  | x :: xs =>
    unfold compositeBest
    rw [hs]
    constructor
    · rcases pyMaxFst_eq_init_or_mem xs x.1 with h1 | ⟨y, hy, h1⟩
      · exact ⟨x, List.mem_cons_self x xs, h1.symm⟩
      · exact ⟨y, List.mem_cons_of_mem x hy, h1.symm⟩
    · intro q hq
      rcases List.mem_cons.mp hq with rfl | hmem
      · exact le_pyMaxFst_init xs q.1
      · exact le_pyMaxFst_of_mem hmem x.1

/-- With a non-negative max_score and a ratio at most one, the best-scoring
candidate survives the band filter, so the band is non-empty. -/
theorem compositeBand_nonempty (m : MathLib) (p : CompositeParams) (s : SimState)
    (task : Task) (now : ℚ)
    (hcand : compositeCandidates m p s task now ≠ [])
    (hbest : 0 ≤ compositeBest m p s task now)
    (hfilter : p.score_filter ≤ 1) :
    compositeBand m p s task now ≠ [] := by
  have hscored : compositeScored m p s task now ≠ [] := by
    unfold compositeScored
    simpa [List.map_eq_nil_iff] using hcand
  obtain ⟨⟨q, hq, hqv⟩, _⟩ := compositeBest_spec m p s task now hscored
  intro hband
  unfold compositeBand at hband
  rw [List.filter_eq_nil_iff] at hband
  refine hband q hq ?_
  simp only [decide_eq_true_eq, ge_iff_le]
  rw [hqv]
  exact mul_le_of_le_one_right hbest hfilter

/-- With a non-empty band the finalist list is non-empty, and every
finalist is a band member whose completed_tasks count is minimal over the
whole band. -/
theorem compositeFinalists_spec (m : MathLib) (p : CompositeParams) (s : SimState)
    (task : Task) (now : ℚ) (hband : compositeBand m p s task now ≠ []) :
    compositeFinalists m p s task now ≠ [] ∧
    (∀ w ∈ compositeFinalists m p s task now,
      w ∈ (compositeBand m p s task now).map Prod.snd ∧
      ∀ q ∈ compositeBand m p s task now, w.completed_tasks ≤ q.2.completed_tasks) := by
  have hmin_le : ∀ q ∈ compositeBand m p s task now,
      compositeMinComp m p s task now ≤ q.2.completed_tasks := by
    intro q hq
    unfold compositeMinComp
    match hb : compositeBand m p s task now with
    | [] => rw [hb] at hq; cases hq
    | b :: bs =>
      rw [hb] at hq
      rcases List.mem_cons.mp hq with rfl | hmem
      · exact foldl_min_le_init _ _
      · exact foldl_min_le_mem (List.mem_map_of_mem (fun sw => sw.2.completed_tasks) hmem) _
  have hmin_mem : ∃ q ∈ compositeBand m p s task now,
      q.2.completed_tasks = compositeMinComp m p s task now := by
    unfold compositeMinComp
    match hb : compositeBand m p s task now with
    | [] => exact absurd hb hband
    | b :: bs =>
      rcases foldl_min_eq_init_or_mem (bs.map (fun sw => sw.2.completed_tasks))
          b.2.completed_tasks with h | h
      · exact ⟨b, List.mem_cons_self b bs, h.symm⟩
      · obtain ⟨q, hq, hqv⟩ := List.mem_map.mp h
        exact ⟨q, List.mem_cons_of_mem b hq, hqv⟩
  constructor
  · obtain ⟨q, hq, hqv⟩ := hmin_mem
    unfold compositeFinalists
    intro hnil
    rw [List.map_eq_nil_iff, List.filter_eq_nil_iff] at hnil
    exact hnil q hq (by simp [hqv])
  · intro w hw
    unfold compositeFinalists at hw
    obtain ⟨q, hq, hqv⟩ := List.mem_map.mp hw
    rw [List.mem_filter] at hq
    obtain ⟨hqband, hqmin⟩ := hq
    simp only [decide_eq_true_eq] at hqmin
    subst hqv
    refine ⟨List.mem_map_of_mem Prod.snd hqband, ?_⟩
    intro q' hq'
    rw [hqmin]
    exact hmin_le q' hq'

/-- Mapping ids over an append splits as a multiset sum. -/
theorem coe_map_append {α : Type} (f : α → ℕ) (l1 l2 : List α) :
    (↑((l1 ++ l2).map f) : Multiset ℕ) = ↑(l1.map f) + ↑(l2.map f) := by
  rw [List.map_append]
  exact_mod_cast rfl

/-- Erasing a present element moves its id out of the multiset. -/
theorem coe_map_erase {α : Type} [DecidableEq α] (f : α → ℕ) {a : α} {l : List α}
    (h : a ∈ l) : (↑(l.map f) : Multiset ℕ) = f a ::ₘ ↑((l.erase a).map f) := by
  have hp := (List.perm_cons_erase h).map f
  have hq := Multiset.coe_eq_coe.mpr hp
  simpa using hq

/-- A filter and its complement split the id multiset. -/
theorem coe_map_filter_split {α : Type} (f : α → ℕ) (p : α → Bool) (l : List α) :
    (↑((l.filter p).map f) : Multiset ℕ) + ↑((l.filter (fun a => !p a)).map f)
      = ↑(l.map f) := by
  have hp := (List.filter_append_perm p l).map f
  have hq := Multiset.coe_eq_coe.mpr hp
  rw [List.map_append] at hq
  rw [← hq]
  exact_mod_cast rfl

/-- The membership-based removal the release functions perform is the
complement filter of the release predicate. -/
theorem filter_notin_filter {α : Type} [DecidableEq α] (l : List α) (p : α → Bool) :
    l.filter (fun a => decide (a ∉ l.filter p)) = l.filter (fun a => !p a) := by
  apply List.filter_congr
  intro a ha
  simp [List.mem_filter, ha]

/-- release_workers does not touch the task pools. -/
theorem taskPool_releaseWorkers (now : ℚ) (s : SimState) :
    taskPool (releaseWorkers now s) = taskPool s := rfl

/-- release_tasks does not touch the worker pools. -/
theorem workerPool_releaseTasks (now : ℚ) (s : SimState) :
    workerPool (releaseTasks now s) = workerPool s := rfl

/-- release_workers only moves workers between pools: the id multiset is
unchanged. -/
theorem workerPool_releaseWorkers (now : ℚ) (s : SimState) :
    workerPool (releaseWorkers now s) = workerPool s := by
  simp only [workerPool, releaseWorkers, workerIds]
  rw [filter_notin_filter]
  rw [coe_map_append Worker.id s.availableWorkers]
  rw [← coe_map_filter_split Worker.id (fun w => decide (w.release_time ≤ now)) s.allWorkers]
  abel

/-- release_tasks only moves tasks between pools: the id multiset is
unchanged. -/
theorem taskPool_releaseTasks (now : ℚ) (s : SimState) :
    taskPool (releaseTasks now s) = taskPool s := by
  simp only [taskPool, releaseTasks, taskIds]
  rw [filter_notin_filter]
  rw [coe_map_append Task.id s.activeTasks]
  rw [← coe_map_filter_split Task.id (fun t => decide (t.release_time ≤ now)) s.allTasks]
  abel

/-- A guarded assign moves the task between pools: the id multiset is
unchanged. -/
theorem taskPool_assignOk {s : SimState} {t : Task} (w : Worker)
    (ht : t ∈ s.activeTasks) :
    taskPool (assignOk s t w) = taskPool s := by
  simp only [taskPool, assignOk, taskIds]
  rw [coe_map_append Task.id s.assignedTasks [t]]
  rw [coe_map_erase Task.id ht]
  simp only [List.map_cons, List.map_nil, Multiset.coe_singleton, ← Multiset.singleton_add]
  abel

/-- A guarded assign moves the worker between pools: the id multiset is
unchanged. -/
theorem workerPool_assignOk {s : SimState} (t : Task) {w : Worker}
    (hw : w ∈ s.availableWorkers) :
    workerPool (assignOk s t w) = workerPool s := by
  simp only [workerPool, assignOk, workerIds]
  rw [coe_map_append Worker.id s.assignedWorkers [w]]
  rw [coe_map_erase Worker.id hw]
  simp only [List.map_cons, List.map_nil, Multiset.coe_singleton, ← Multiset.singleton_add]
  abel

/-- A guarded complete moves the task from assigned to completed: the id
multiset is unchanged. -/
theorem taskPool_completeTask {cfg : SimConfig} {s : SimState} {t : Task}
    (w : Worker) (now : ℚ) (ht : t ∈ s.assignedTasks) :
    taskPool (completeTask cfg s t w now) = taskPool s := by
  simp only [taskPool, completeTask, taskIds]
  rw [if_pos ht]
  rw [coe_map_append Task.id s.completedTasks [t]]
  rw [coe_map_erase Task.id ht]
  simp only [List.map_cons, List.map_nil, Multiset.coe_singleton, ← Multiset.singleton_add]
  abel

/-- A guarded complete returns the worker (same id, updated counters) to
the available pool: the id multiset is unchanged. -/
theorem workerPool_completeTask {cfg : SimConfig} {s : SimState} (t : Task)
    {w : Worker} (now : ℚ) (hw : w ∈ s.assignedWorkers) :
    workerPool (completeTask cfg s t w now) = workerPool s := by
  simp only [workerPool, completeTask, workerIds, Worker.recordCompletion]
  rw [if_pos hw]
  rw [coe_map_append Worker.id s.availableWorkers]
  rw [coe_map_erase Worker.id hw]
  split <;>
  · simp only [List.map_cons, List.map_nil, Multiset.coe_singleton, ← Multiset.singleton_add]
    abel

/-- update_idle rewrites counters, never the identity. -/
theorem updateIdle_id (w : Worker) (now : ℚ) : (w.updateIdle now).id = w.id := by
  simp only [Worker.updateIdle]
  split <;> rfl

/-- The per-tick idle pass keeps the available pool's id multiset. -/
theorem workerIds_map_updateIdle (l : List Worker) (now : ℚ) :
    workerIds (l.map (·.updateIdle now)) = workerIds l := by
  unfold workerIds
  rw [List.map_map]
  have hf : (Worker.id ∘ fun w => Worker.updateIdle w now) = Worker.id :=
    funext fun w => updateIdle_id w now
  rw [hf]

/-- release_workers does not touch the task lists, hence freshness. -/
theorem freshTasks_releaseWorkers (now : ℚ) (s : SimState) (h : FreshTasks s) :
    FreshTasks (releaseWorkers now s) :=
  fun t ht => h t ht

/-- release_tasks moves tasks between pending and active, preserving
freshness. -/
theorem freshTasks_releaseTasks (now : ℚ) (s : SimState) (h : FreshTasks s) :
    FreshTasks (releaseTasks now s) := by
  intro t ht
  simp only [releaseTasks, List.mem_append] at ht
  apply h
  simp only [List.mem_append]
  rcases ht with (h1 | (h2a | h2b)) | h3
  · exact Or.inl (Or.inl (List.mem_of_mem_filter h1))
  · exact Or.inl (Or.inr h2a)
  · exact Or.inl (Or.inl (List.mem_of_mem_filter h2b))
  · exact Or.inr h3

/-- A guarded assign moves an active task into assigned, preserving
freshness. -/
theorem freshTasks_assignOk {s : SimState} {t : Task} (w : Worker)
    (ht : t ∈ s.activeTasks) (h : FreshTasks s) : FreshTasks (assignOk s t w) := by
  intro x hx
  simp only [assignOk, List.mem_append] at hx
  apply h
  simp only [List.mem_append]
  rcases hx with (h1 | h2) | (h3a | h3b)
  · exact Or.inl (Or.inl h1)
  · exact Or.inl (Or.inr (List.mem_of_mem_erase h2))
  · exact Or.inr h3a
  · rw [List.mem_singleton] at h3b
    subst h3b
    exact Or.inl (Or.inr ht)

/-- complete removes a task from assigned, preserving freshness of the
remaining not-yet-completed tasks. -/
theorem freshTasks_completeTask {cfg : SimConfig} {s : SimState} (t : Task)
    (w : Worker) (now : ℚ) (h : FreshTasks s) :
    FreshTasks (completeTask cfg s t w now) := by
  intro x hx
  simp only [completeTask, List.mem_append] at hx
  apply h
  simp only [List.mem_append]
  rcases hx with (h1 | h2) | h3
  · exact Or.inl (Or.inl h1)
  · exact Or.inl (Or.inr h2)
  · split at h3
    · exact Or.inr (List.mem_of_mem_erase h3)
    · exact Or.inr h3

/-- On a fresh state, step finds nothing to auto-complete: its effect is
the two releases plus the idle pass, and the pools' id multisets and
freshness survive. -/
theorem stepOp_fresh_spec {cfg : SimConfig} {now : ℚ} {s s' : SimState}
    (h : FreshTasks s) (hstep : stepOp cfg now s = .ok s') :
    taskPool s' = taskPool s ∧ workerPool s' = workerPool s ∧ FreshTasks s' := by
  have hfresh1 : FreshTasks (releaseTasks now (releaseWorkers now s)) :=
    freshTasks_releaseTasks now _ (freshTasks_releaseWorkers now s h)
  have hnil : (releaseTasks now (releaseWorkers now s)).assignedTasks.filter
      (fun t => match t.finish_time with
        | some ft => decide (ft ≤ now)
        | none => false) = [] := by
    rw [List.filter_eq_nil_iff]
    intro t ht
    have hft : t.finish_time = none := hfresh1 t (by
      simp only [List.mem_append]
      exact Or.inr ht)
    simp [hft]
  have hstep2 : Except.ok (ε := PyErr)
      { releaseTasks now (releaseWorkers now s) with
        availableWorkers := (releaseTasks now (releaseWorkers now s)).availableWorkers.map
          (·.updateIdle now) } = .ok s' := by
    rw [← hstep]
    simp only [stepOp]
    rw [hnil]
    rfl
  obtain rfl := (Except.ok.inj hstep2)
  refine ⟨?_, ?_, ?_⟩
  · show taskPool (releaseTasks now (releaseWorkers now s)) = taskPool s
    rw [taskPool_releaseTasks, taskPool_releaseWorkers]
  · have h2 : workerPool { releaseTasks now (releaseWorkers now s) with
        availableWorkers := (releaseTasks now (releaseWorkers now s)).availableWorkers.map
          (·.updateIdle now) }
        = workerPool (releaseTasks now (releaseWorkers now s)) := by
      unfold workerPool
      dsimp only
      rw [workerIds_map_updateIdle]
    rw [h2, workerPool_releaseTasks, workerPool_releaseWorkers]
  · intro x hx
    exact hfresh1 x hx

/-- The reachability induction: along guarded operation sequences from a
fresh ingestion state, both id multisets match the input and the
not-yet-completed tasks stay fresh. -/
theorem greach_invariant {cfg : SimConfig} {ws : List Worker} {ts : List Task}
    {s : SimState} (h : GReach cfg ws ts s)
    (hfresh0 : ∀ t ∈ ts, t.finish_time = none) :
    taskPool s = taskIds ts ∧ workerPool s = workerIds ws ∧ FreshTasks s := by
  induction h with
  | init =>
    refine ⟨?_, ?_, ?_⟩
    · simp [taskPool, initState, taskIds]
    · simp [workerPool, initState, workerIds]
    · intro t ht
      simp only [initState, List.append_nil] at ht
      exact hfresh0 t ht
  | releaseW now _ ih =>
    obtain ⟨h1, h2, h3⟩ := ih
    exact ⟨(taskPool_releaseWorkers now _).trans h1,
      (workerPool_releaseWorkers now _).trans h2,
      freshTasks_releaseWorkers now _ h3⟩
  | releaseT now _ ih =>
    obtain ⟨h1, h2, h3⟩ := ih
    exact ⟨(taskPool_releaseTasks now _).trans h1,
      (workerPool_releaseTasks now _).trans h2,
      freshTasks_releaseTasks now _ h3⟩
  | assign t w _ ht hw ih =>
    obtain ⟨h1, h2, h3⟩ := ih
    exact ⟨(taskPool_assignOk w ht).trans h1,
      (workerPool_assignOk t hw).trans h2,
      freshTasks_assignOk w ht h3⟩
  | complete t w now _ ht hw ih =>
    obtain ⟨h1, h2, h3⟩ := ih
    exact ⟨(taskPool_completeTask w now ht).trans h1,
      (workerPool_completeTask t now hw).trans h2,
      freshTasks_completeTask t w now h3⟩
  | step now _ hstep ih =>
    obtain ⟨h1, h2, h3⟩ := ih
    obtain ⟨g1, g2, g3⟩ := stepOp_fresh_spec h3 hstep
    exact ⟨g1.trans h1, g2.trans h2, g3⟩

/-! ## Claims -/

/-- C9: update_idle follows exactly the documented recurrence.  When the
worker is available and now has not moved backwards past last_state_ts, the
idle delta now − last_state_ts is added to total_idle_time and the fairness
signal becomes (1−γ)·total_idle_seconds + γ·previous_signal, the γ
coefficient weighting the previous EWMA value against the new absolute
cumulative idle seconds; and in every case, whichever branch is taken,
last_state_ts is advanced to now (an unset last_state_ts is first
initialised to now, which the getD on the hypothesis reflects). -/
theorem c9_update_idle_recurrence (w : Worker) (now : ℚ)
    (hav : w.available = true) (hts : w.last_state_ts.getD now ≤ now) :
    (w.updateIdle now).total_idle_time
        = w.total_idle_time + (now - w.last_state_ts.getD now) ∧
    (w.updateIdle now).fairness_ewma
        = (1 - w.gamma) * (w.total_idle_time + (now - w.last_state_ts.getD now))
          + w.gamma * w.fairness_ewma ∧
    ∀ (u : Worker) (t : ℚ), (u.updateIdle t).last_state_ts = some t := by
  refine ⟨?_, ?_, fun u t => ?_⟩
  · simp [Worker.updateIdle, hav, hts]
  · simp [Worker.updateIdle, hav, hts]
  · simp only [Worker.updateIdle]
    split <;> rfl

/-- Witness for C9 at the idle fixture: 10 idle seconds accrue on top of 3,
and the signal becomes 0.7·13 + 0.3·7 = 11.2. -/
theorem c9_update_idle_recurrence_witness :
    wIdle.available = true ∧ wIdle.last_state_ts.getD 12 ≤ 12 ∧
    ((wIdle.updateIdle 12).total_idle_time
        = wIdle.total_idle_time + (12 - wIdle.last_state_ts.getD 12) ∧
     (wIdle.updateIdle 12).fairness_ewma
        = (1 - wIdle.gamma) * (wIdle.total_idle_time + (12 - wIdle.last_state_ts.getD 12))
          + wIdle.gamma * wIdle.fairness_ewma ∧
     ∀ (u : Worker) (t : ℚ), (u.updateIdle t).last_state_ts = some t) :=
  ⟨rfl, by decide, c9_update_idle_recurrence wIdle 12 rfl (by decide)⟩

/-- C2: with a non-empty active pool, composite assign raises
AttributeError while filtering the pool (line 38 reads t.worker_id, an
attribute the Task type never defines), before any per-task processing and
hence before any assignment is committed; with an empty active pool it
returns normally with no assignments and the state untouched. -/
theorem c2_composite_attribute_error (m : MathLib) (p : CompositeParams)
    (rands : ℕ → ℕ) (s : SimState) (now : ℚ) :
    (s.activeTasks ≠ [] →
      compositeAssign m p rands s now = .error .attributeError) ∧
    (s.activeTasks = [] →
      compositeAssign m p rands s now = .ok ([], s)) := by
  constructor
  · intro h
    match hs : s.activeTasks with
    | [] => exact absurd hs h
    | t :: ts =>
      simp [compositeAssign, hs, compositeFilterTasks, taskGetattrWorkerId,
        Bind.bind, Except.bind]
  · intro h
    simp [compositeAssign, h, compositeFilterTasks, compositeLoop,
      Bind.bind, Except.bind]

/-- Witness for C2 at the band fixture state, whose active pool holds one
task. -/
theorem c2_composite_attribute_error_witness :
    sBand.activeTasks ≠ [] ∧
    compositeAssign mathStub p0 (fun _ => 0) sBand 0 = .error .attributeError :=
  ⟨by decide, (c2_composite_attribute_error mathStub p0 (fun _ => 0) sBand 0).1 (by decide)⟩

/-- C10: when the best composite score over a task's candidates falls
short of soft_threshold, the per-task pass commits nothing: no assignment
record is produced and the state — pools, workers and tasks alike — is
returned untouched, leaving the task in the active pool. -/
theorem c10_soft_threshold_defers (m : MathLib) (p : CompositeParams) (rand : ℕ)
    (s : SimState) (task : Task) (now : ℚ)
    (hcand : compositeCandidates m p s task now ≠ [])
    (hbest : compositeBest m p s task now < p.soft_threshold) :
    compositeProcessTask m p rand s task now = (none, s) := by
  unfold compositeProcessTask
  rw [if_neg hcand, if_pos hbest]

/-- Witness for C10 at the low-score fixture: the only candidate scores 1,
below the default threshold 4, and the pass is a no-op. -/
theorem c10_soft_threshold_defers_witness :
    compositeCandidates mathStub p0 sCold tF 0 ≠ [] ∧
    compositeBest mathStub p0 sCold tF 0 < p0.soft_threshold ∧
    compositeProcessTask mathStub p0 0 sCold tF 0 = (none, sCold) :=
  ⟨by decide, by decide,
    c10_soft_threshold_defers mathStub p0 0 sCold tF 0 (by decide) (by decide)⟩

/-- C4 counterexample: the tie-break draws from the ambient global random
module, which no code in the repository ever seeds; with two score-tied
finalists the committed worker is whichever the ambient draw picks, so the
(task_id, worker_id) decision is not a function of records, configuration
and seed alone.  Here draws 0 and 1 of the ambient source, on identical
input and configuration, assign task 7 to workers 11 and 12 respectively. -/
theorem c4_seeded_determinism_cex :
    ((compositeProcessTask mathStub p0 0 sTie tF 0).1.map (fun a => a.2.1)
      = some wTieA.id) ∧
    ((compositeProcessTask mathStub p0 1 sTie tF 0).1.map (fun a => a.2.1)
      = some wTieB.id) ∧
    wTieA.id ≠ wTieB.id := by decide

/-- C4 amended: reproducibility holds exactly up to the unseeded tie-break —
whenever at most one finalist remains after the fairness filter, the
per-task decision is independent of the ambient random draw; with two or
more tied finalists it is not (see the counterexample), since the draw
comes from Python's global random module which the repository never seeds
and no seed is threaded through the strategy call. -/
theorem c4_deterministic_without_tie (m : MathLib) (p : CompositeParams)
    (s : SimState) (task : Task) (now : ℚ) (r1 r2 : ℕ)
    (h : (compositeFinalists m p s task now).length ≤ 1) :
    compositeProcessTask m p r1 s task now = compositeProcessTask m p r2 s task now := by
  unfold compositeProcessTask
  by_cases hA : compositeCandidates m p s task now = []
  · rw [if_pos hA, if_pos hA]
  · rw [if_neg hA, if_neg hA]
    by_cases hB : compositeBest m p s task now < p.soft_threshold
    · rw [if_pos hB, if_pos hB]
    · rw [if_neg hB, if_neg hB]
      cases hf : compositeFinalists m p s task now with
      | nil => rfl
      | cons f fs =>
        rw [hf] at h
        cases fs with
        | nil => simp [Nat.mod_one]
        | cons g gs => simp at h

/-- Witness for C4 amended at the band fixture, where the fairness filter
leaves the single finalist wFresh: draws 0 and 3 agree. -/
theorem c4_deterministic_without_tie_witness :
    (compositeFinalists mathStub p0 sBand tF 0).length ≤ 1 ∧
    compositeProcessTask mathStub p0 0 sBand tF 0
      = compositeProcessTask mathStub p0 3 sBand tF 0 :=
  ⟨by decide, c4_deterministic_without_tie mathStub p0 sBand tF 0 0 3 (by decide)⟩

/-- C3: when the best candidate score reaches the soft threshold (the
threshold being non-negative and the band ratio at most one, as in the
default configuration 4.0 and 0.8), the committed worker is drawn from the
near-optimal band — candidates scoring at least score_filter times the
maximum — and is a band member with the fewest completed_tasks; remaining
ties go to the ambient draw among exactly those minimal members.  In
particular a lower-scoring in-band candidate with strictly fewer completed
tasks beats the top scorer (see the witness). -/
theorem c3_band_fairness (m : MathLib) (p : CompositeParams) (rand : ℕ)
    (s : SimState) (task : Task) (now : ℚ)
    (hcand : compositeCandidates m p s task now ≠ [])
    (hsoft : p.soft_threshold ≤ compositeBest m p s task now)
    (hsoft0 : 0 ≤ p.soft_threshold)
    (hfilter : p.score_filter ≤ 1) :
    ∃ w : Worker,
      (compositeProcessTask m p rand s task now).1.map (fun a => a.2.1) = some w.id ∧
      w ∈ compositeFinalists m p s task now ∧
      w ∈ (compositeBand m p s task now).map Prod.snd ∧
      (∀ q ∈ compositeBand m p s task now, w.completed_tasks ≤ q.2.completed_tasks) := by
  have hbest0 : 0 ≤ compositeBest m p s task now := le_trans hsoft0 hsoft
  have hband := compositeBand_nonempty m p s task now hcand hbest0 hfilter
  obtain ⟨hfin_ne, hfin⟩ := compositeFinalists_spec m p s task now hband
  unfold compositeProcessTask
  rw [if_neg hcand, if_neg (not_lt.mpr hsoft)]
  cases hf : compositeFinalists m p s task now with
  | nil => exact absurd hf hfin_ne
  | cons f fs =>
    have hwmem : (f :: fs).get ⟨rand % (f :: fs).length,
        Nat.mod_lt _ (Nat.succ_pos _)⟩ ∈ f :: fs := List.get_mem _ _ _
    have hwmem' : (f :: fs).get ⟨rand % (f :: fs).length,
        Nat.mod_lt _ (Nat.succ_pos _)⟩ ∈ compositeFinalists m p s task now := by
      rw [hf]; exact hwmem
    obtain ⟨hwband, hwmin⟩ := hfin _ hwmem'
    exact ⟨_, by simp [compositeCommit], hwmem, hwband, hwmin⟩

/-- Witness for C3 at the band fixture: wBusy scores 11, wFresh scores
10.5 — both inside the 0.8 band (threshold 8.8) — and wFresh, with 0
completed tasks against wBusy's 5, is committed despite its lower score. -/
theorem c3_band_fairness_witness :
    (compositeCandidates mathStub p0 sBand tF 0 ≠ [] ∧
     p0.soft_threshold ≤ compositeBest mathStub p0 sBand tF 0 ∧
     0 ≤ p0.soft_threshold ∧ p0.score_filter ≤ 1) ∧
    (∃ w : Worker,
      (compositeProcessTask mathStub p0 0 sBand tF 0).1.map (fun a => a.2.1) = some w.id ∧
      w ∈ compositeFinalists mathStub p0 sBand tF 0 ∧
      w ∈ (compositeBand mathStub p0 sBand tF 0).map Prod.snd ∧
      (∀ q ∈ compositeBand mathStub p0 sBand tF 0,
        w.completed_tasks ≤ q.2.completed_tasks)) ∧
    ((compositeProcessTask mathStub p0 0 sBand tF 0).1.map (fun a => a.2.1)
        = some wFresh.id ∧
     wFresh.completed_tasks < wBusy.completed_tasks ∧
     scoreFn mathStub p0 tF wFresh 0 < scoreFn mathStub p0 tF wBusy 0 ∧
     (scoreFn mathStub p0 tF wFresh 0, wFresh) ∈ compositeBand mathStub p0 sBand tF 0 ∧
     (scoreFn mathStub p0 tF wBusy 0, wBusy) ∈ compositeBand mathStub p0 sBand tF 0) :=
  ⟨⟨by decide, by decide, by decide, by decide⟩,
   c3_band_fairness mathStub p0 0 sBand tF 0 (by decide) (by decide) (by decide) (by decide),
   by decide, by decide, by decide, by decide, by decide⟩

/-- C1 counterexample: the greedy scan tests only the worker's deadline
(greedy.py line 35) and never the task's expiry.  At the released fixture
state the single worker's projected finish time is 240 s, past the task's
expire_time of 100 s, yet greedy still admits it, picks it and commits the
assignment, stamping finish_time = 240 on the task. -/
theorem c1_greedy_expiry_cex :
    (greedyAssign mathStub sGreedy 0).1 = [(tExpire.id, wGreedy.id, 1)] ∧
    (greedyAssign mathStub sGreedy 0).2.assignedTasks.map Task.finish_time = [some 240] ∧
    tExpire.expire_time < finishEta 0 (1 + 1) ∧
    finishEta 0 (1 + 1) ≤ wGreedy.deadline := by decide

/-- C1 amended: the two strategies do not enforce the same feasibility
window.  CompositeFairness admits a candidate only if the projected finish
time respects both the worker's deadline and the task's expire_time;
NearestFeasible greedy checks only the worker's deadline, so a pair whose
finish time violates the task's expiry alone can still be scanned, chosen
and assigned (see the counterexample). -/
theorem c1_feasibility_enforcement :
    (∀ (m : MathLib) (now : ℚ) (task : Task) (dropC : ℚ) (ws : List Worker)
        (w : Worker) (d : ℚ),
      greedyPick m now task dropC ws none = some (w, d) →
      finishEta now (d + dropC) ≤ w.deadline ∧
      d = manhattan_km m w.start_lat w.start_lon task.pickup_lat task.pickup_lon) ∧
    (∀ (m : MathLib) (p : CompositeParams) (s : SimState) (task : Task)
        (now d : ℚ) (w : Worker), (d, w) ∈ compositeCandidates m p s task now →
      finishEta now (d + manhattan_km m task.pickup_lat task.pickup_lon
          task.dropoff_lat task.dropoff_lon) ≤ w.deadline ∧
      finishEta now (d + manhattan_km m task.pickup_lat task.pickup_lon
          task.dropoff_lat task.dropoff_lon) ≤ task.expire_time) := by
  constructor
  · intro m now task dropC ws w d hres
    exact greedyPick_deadline_inv m now task dropC ws none w d
      (by intro bw bd h; cases h) hres
  · intro m p s task now d w hmem
    obtain ⟨_, _, h1, h2⟩ := compositeCandidates_feasible hmem
    exact ⟨h1, h2⟩

/-- Witness for C1 amended: the greedy half at the expiry fixture, the
composite half at the band fixture. -/
theorem c1_feasibility_enforcement_witness :
    (greedyPick mathStub 0 tExpire 1 [wGreedy] none = some (wGreedy, 1) ∧
     finishEta 0 (1 + 1) ≤ wGreedy.deadline ∧
     (1 : ℚ) = manhattan_km mathStub wGreedy.start_lat wGreedy.start_lon
        tExpire.pickup_lat tExpire.pickup_lon) ∧
    ((0, wBusy) ∈ compositeCandidates mathStub p0 sBand tF 0 ∧
     finishEta 0 (0 + manhattan_km mathStub tF.pickup_lat tF.pickup_lon
        tF.dropoff_lat tF.dropoff_lon) ≤ wBusy.deadline ∧
     finishEta 0 (0 + manhattan_km mathStub tF.pickup_lat tF.pickup_lon
        tF.dropoff_lat tF.dropoff_lon) ≤ tF.expire_time) :=
  ⟨⟨by decide, c1_feasibility_enforcement.1 mathStub 0 tExpire 1 [wGreedy] wGreedy 1 (by decide)⟩,
   ⟨by decide, c1_feasibility_enforcement.2 mathStub p0 sBand tF 0 0 wBusy (by decide)⟩⟩

/-- C6 counterexample: run greedy at tick 0 on the released fixture and let
step auto-complete the assignment at its finish time 240.  The completed
worker is back in the available pool with available = true, yet its
assigned-task reference still holds task 1 — record_completion
(worker.py lines 54–61) never clears assigned_task, so
available == (assigned_task unset) fails right after the first
completion. -/
theorem c6_completion_reference_cex :
    (stepOp cfg0 240 (greedyAssign mathStub sGreedy 0).2).map
        (fun st => st.availableWorkers.map (fun w => (w.available, w.assigned_task)))
      = .ok [(true, some tExpire.id)] ∧
    some tExpire.id ≠ (none : Option ℕ) := by decide

/-- C6 amended: complete(task, worker, now) does return the worker to the
available pool marked available, but the assigned-task reference is left
exactly as it was — it is not unset.  The appended pool entry carries
available = true, an incremented completion count, the same id, and the
untouched assigned_task field. -/
theorem c6_complete_keeps_reference (cfg : SimConfig) (s : SimState) (t : Task)
    (w : Worker) (now : ℚ) :
    ∃ w2, (completeTask cfg s t w now).availableWorkers = s.availableWorkers ++ [w2] ∧
      w2.available = true ∧ w2.assigned_task = w.assigned_task ∧
      w2.completed_tasks = w.completed_tasks + 1 ∧ w2.id = w.id := by
  refine ⟨_, rfl, ?_, ?_, ?_, ?_⟩ <;>
  · simp only [Worker.recordCompletion]
    split <;> rfl

/-- C7 counterexample: complete_task checks no precondition.  Called on the
released fixture, whose task is active (not assigned) and whose worker is
available (not assigned), it signals nothing and proceeds: the task is
appended to the completed pool while still sitting in the active pool, and
the worker is appended to the available pool a second time. -/
theorem c7_unchecked_complete_cex :
    tExpire ∉ sGreedy.assignedTasks ∧ wGreedy ∉ sGreedy.assignedWorkers ∧
    (completeTask cfg0 sGreedy tExpire wGreedy 0).completedTasks = [tExpire] ∧
    (completeTask cfg0 sGreedy tExpire wGreedy 0).activeTasks = [tExpire] ∧
    (completeTask cfg0 sGreedy tExpire wGreedy 0).availableWorkers.length = 2 := by decide

/-- C7 amended: only assign guards its pools — assign_task raises (the
ValueError of list.remove, the in-code realisation of the spec's
InvalidStateTransition) whenever the task is not active or the worker is
not available, and commits nothing in the error case; complete_task, by
contrast, checks nothing and always proceeds, appending the task to the
completed pool and the worker to the available pool whether or not the
pair was assigned. -/
theorem c7_transition_guard_asymmetry (cfg : SimConfig) (s : SimState) (t : Task)
    (w : Worker) (now : ℚ) :
    (t ∉ s.activeTasks → assignTask s t w = .error .valueError) ∧
    (w ∉ s.availableWorkers → assignTask s t w = .error .valueError) ∧
    (completeTask cfg s t w now).completedTasks = s.completedTasks ++ [t] ∧
    ∃ w2, (completeTask cfg s t w now).availableWorkers = s.availableWorkers ++ [w2] := by
  refine ⟨?_, ?_, rfl, ⟨_, rfl⟩⟩
  · intro h
    unfold assignTask
    rw [if_neg h]
  · intro h
    unfold assignTask
    by_cases ht : t ∈ s.activeTasks
    · rw [if_pos ht, if_neg h]
    · rw [if_neg ht]

/-- Witness for C7 amended: assign errors on a pending (unreleased) task
and on a missing worker; complete proceeds on the released fixture. -/
theorem c7_transition_guard_asymmetry_witness :
    (tExpire ∉ (initState [wGreedy] [tExpire]).activeTasks ∧
     assignTask (initState [wGreedy] [tExpire]) tExpire wGreedy = .error .valueError) ∧
    (wGreedy ∉ sNoWorker.availableWorkers ∧
     assignTask sNoWorker tExpire wGreedy = .error .valueError) ∧
    (completeTask cfg0 sGreedy tExpire wGreedy 0).completedTasks
      = sGreedy.completedTasks ++ [tExpire] :=
  ⟨⟨by decide,
    (c7_transition_guard_asymmetry cfg0 (initState [wGreedy] [tExpire]) tExpire wGreedy 0).1
      (by decide)⟩,
   ⟨by decide,
    (c7_transition_guard_asymmetry cfg0 sNoWorker tExpire wGreedy 0).2.1 (by decide)⟩,
   (c7_transition_guard_asymmetry cfg0 sGreedy tExpire wGreedy 0).2.2.1⟩

/-- C5 counterexample: the partition is NOT maintained under arbitrary
release/assign/complete/step sequences, because complete_task checks no
precondition.  Releasing both fixtures and then calling complete on the
still-active pair — a sequence of the claim's four operations — yields a
reachable state whose task occupies the active AND the completed pool (its
id appears twice across the pools, and the task pools sum to 2 entries
from 1 input task). -/
theorem c5_pool_partition_cex :
    UReach cfg0 [wGreedy] [tExpire] (completeTask cfg0 sGreedy tExpire wGreedy 0) ∧
    ([tExpire].map Task.id).Nodup ∧ ([wGreedy].map Worker.id).Nodup ∧
    (∀ t ∈ ([tExpire] : List Task), t.finish_time = none) ∧
    tExpire.id ∈ [tExpire].map Task.id ∧
    (taskPool (completeTask cfg0 sGreedy tExpire wGreedy 0)).count tExpire.id = 2 ∧
    (completeTask cfg0 sGreedy tExpire wGreedy 0).activeTasks = [tExpire] ∧
    (completeTask cfg0 sGreedy tExpire wGreedy 0).completedTasks = [tExpire] := by
  refine ⟨?_, by decide, by decide, by decide, by decide, by decide, by decide, by decide⟩
  exact UReach.complete tExpire wGreedy 0
    (UReach.releaseT 0 (UReach.releaseW 0 UReach.init))

/-- C5 amended: the partition and count invariant holds for every state
reachable from a fresh ingestion (entities constructed by the model
initialisers, so tasks carry no finish_time yet) by release/assign/
complete/step calls that respect the documented preconditions — assign on
an active task and available worker, complete on an assigned pair.  Then
every input task id occurs exactly once across the four task pools, every
input worker id exactly once across the three worker pools, and the pool
sizes sum to the input counts.  Unchecked complete calls break it (see the
counterexample). -/
theorem c5_pool_partition (cfg : SimConfig) (ws : List Worker) (ts : List Task)
    (s : SimState) (h : GReach cfg ws ts s)
    (hfresh : ∀ t ∈ ts, t.finish_time = none)
    (hwn : (ws.map Worker.id).Nodup) (htn : (ts.map Task.id).Nodup) :
    taskPool s = taskIds ts ∧ workerPool s = workerIds ws ∧
    (∀ tid ∈ ts.map Task.id, (taskPool s).count tid = 1) ∧
    (∀ wid ∈ ws.map Worker.id, (workerPool s).count wid = 1) ∧
    s.allTasks.length + s.activeTasks.length + s.assignedTasks.length
      + s.completedTasks.length = ts.length ∧
    s.allWorkers.length + s.availableWorkers.length + s.assignedWorkers.length
      = ws.length := by
  obtain ⟨h1, h2, _⟩ := greach_invariant h hfresh
  refine ⟨h1, h2, ?_, ?_, ?_, ?_⟩
  · intro tid htid
    rw [h1]
    unfold taskIds
    rw [Multiset.coe_count]
    exact List.count_eq_one_of_mem htn htid
  · intro wid hwid
    rw [h2]
    unfold workerIds
    rw [Multiset.coe_count]
    exact List.count_eq_one_of_mem hwn hwid
  · have hcard := congrArg Multiset.card h1
    simp only [taskPool, taskIds, Multiset.card_add, Multiset.coe_card,
      List.length_map] at hcard
    omega
  · have hcard := congrArg Multiset.card h2
    simp only [workerPool, workerIds, Multiset.card_add, Multiset.coe_card,
      List.length_map] at hcard
    omega

/-- Witness for C5 amended: the guarded run release, assign, complete on
the two fixtures ends with the task completed and the worker available,
each id counted once, counts summing to the inputs. -/
theorem c5_pool_partition_witness :
    GReach cfg0 [wGreedy] [tExpire] sC5end ∧
    (∀ t ∈ ([tExpire] : List Task), t.finish_time = none) ∧
    ([wGreedy].map Worker.id).Nodup ∧ ([tExpire].map Task.id).Nodup ∧
    (taskPool sC5end = taskIds [tExpire] ∧ workerPool sC5end = workerIds [wGreedy] ∧
     (∀ tid ∈ [tExpire].map Task.id, (taskPool sC5end).count tid = 1) ∧
     (∀ wid ∈ [wGreedy].map Worker.id, (workerPool sC5end).count wid = 1) ∧
     sC5end.allTasks.length + sC5end.activeTasks.length + sC5end.assignedTasks.length
       + sC5end.completedTasks.length = 1 ∧
     sC5end.allWorkers.length + sC5end.availableWorkers.length
       + sC5end.assignedWorkers.length = 1) := by
  have hreach : GReach cfg0 [wGreedy] [tExpire] sC5end :=
    GReach.complete tExpire wGreedy 240
      (GReach.assign tExpire wGreedy
        (GReach.releaseT 0 (GReach.releaseW 0 GReach.init)) (by decide) (by decide))
      (by decide) (by decide)
  exact ⟨hreach, by decide, by decide, by decide,
    c5_pool_partition cfg0 [wGreedy] [tExpire] sC5end hreach
      (by decide) (by decide) (by decide)⟩

/-- C8: the release transition is idempotent per tick — repeating both
release calls at the same now moves no further workers and no further
tasks; the state is unchanged to the last field. -/
theorem c8_release_idempotent (now : ℚ) (s : SimState) :
    releaseAll now (releaseAll now s) = releaseAll now s := by
  unfold releaseAll
  rw [releaseWorkers_releaseTasks_comm, releaseTasks_idem, releaseWorkers_idem]

end ScSim
